import Mathlib

/-!
Shallow embedding of the transcript-acquisition core of the
youtube-summariser repository (src/transcript.rs, src/utils.rs,
src/openai.rs), together with proofs about the claims of its
specification.

Rust strings are modelled as `List Char`.  Rust `str::replace`
(non-overlapping, leftmost, all occurrences) is modelled by
`replaceAll`.  Regular-expression search from the `regex` crate is
modelled per concrete pattern by dedicated scanners that follow the
crate's leftmost-first semantics (`.` never matches a newline; lazy
`.*?` prefers the shortest span; greedy `.*` the longest; alternatives
are tried in order at each start position, and the start position
advances by one character on failure).  The Unicode-aware `\d` class is
modelled on its ASCII subset (`Char.isDigit`), which is the subset
accepted by the subsequent `str::parse::<u32>` call; `\s` is modelled
by the full `White_Space` set that the regex crate uses.  Fallible Rust
functions returning `anyhow::Result` are modelled with `Except (List Char)`.
-/

/-- Convenience: the character list of a string literal. -/
def str (s : String) : List Char := s.toList

/-- Fuelled worker for `replaceAll`.  One unit of fuel is spent per
consumed input character, so fuel `s.length` always suffices. -/
def replaceAllF (pat repl : List Char) : Nat → List Char → List Char
  | _, [] => []
  | 0, s => s
  | f + 1, c :: rest =>
    if pat ≠ [] ∧ pat <+: (c :: rest) then
      repl ++ replaceAllF pat repl f ((c :: rest).drop pat.length)
    else
      c :: replaceAllF pat repl f rest

/-- Model of Rust `str::replace`: replace every non-overlapping
occurrence of `pat`, scanning left to right. -/
def replaceAll (pat repl s : List Char) : List Char :=
  replaceAllF pat repl s.length s

/-- The chain of fixed named-entity substitutions performed first by
`decode_html_entities` (src/transcript.rs lines 121-130), in source
order. -/
def namedPass (text : List Char) : List Char :=
  let r := replaceAll (str "&quot;") (str "\"") text
  let r := replaceAll (str "&amp;") (str "&") r
  let r := replaceAll (str "&lt;") (str "<") r
  let r := replaceAll (str "&gt;") (str ">") r
  let r := replaceAll ['&', '#', '3', '9', ';'] [Char.ofNat 39] r
  let r := replaceAll (str "&apos;") [Char.ofNat 39] r
  let r := replaceAll ['&', '#', 'x', '2', '7', ';'] [Char.ofNat 39] r
  let r := replaceAll (str "&#x2F;") (str "/") r
  let r := replaceAll (str "<br/>") (str "\n") r
  let r := replaceAll (str "<br />") (str "\n") r
  r

/-- Match of the regex `&#(\d+);` (src/transcript.rs line 133) anchored
at the current position: the position matches exactly when `&#` is
followed by a non-empty maximal digit run that is itself followed by
`;` (the greedy `\d+` cannot backtrack successfully, since a shortened
digit run is followed by a digit, not `;`).  Returns the digits. -/
def numRefAt (s : List Char) : Option (List Char) :=
  match s with
  | '&' :: '#' :: rest =>
    let ds := rest.takeWhile Char.isDigit
    if ds ≠ [] ∧ (rest.drop ds.length).head? = some ';' then some ds else none
  | _ => none

/-- The scan itself: try the anchored match at each position from the
left. -/
def findNumRef : List Char → Option (List Char)
  | [] => none
  | c :: rest =>
    match numRefAt (c :: rest) with
    | some ds => some ds
    | none => findNumRef rest

/-- Decimal value of a digit run, as computed by `str::parse::<u32>`
before its overflow check. -/
def digitsVal (ds : List Char) : Nat :=
  ds.foldl (fun acc c => acc * 10 + (c.toNat - 48)) 0

/-- One iteration of the `while let Some(cap) = re_numeric.captures(..)`
loop (src/transcript.rs lines 134-145): find the first numeric
reference; if its digits parse as a `u32` (no overflow) and denote a
valid code point, replace every occurrence of the matched text by that
character, otherwise delete every occurrence.  `none` means no match,
i.e. the loop exits. -/
def numStep (s : List Char) : Option (List Char) :=
  match findNumRef s with
  | none => none
  | some ds =>
    let full := '&' :: '#' :: (ds ++ [';'])
    let n := digitsVal ds
    some (if n ≤ 4294967295 ∧ Nat.isValidChar n then
            replaceAll full [Char.ofNat n] s
          else
            replaceAll full [] s)

/-- Fuelled iteration of the numeric-entity loop; `none` signals fuel
exhaustion before the loop exited. -/
def decodeNumericFuel : Nat → List Char → Option (List Char)
  | 0, _ => none
  | f + 1, s =>
    match numStep s with
    | none => some s
    | some t => decodeNumericFuel f t

/-- The numeric-entity loop of `decode_html_entities`.  Fuel
`s.length + 1` always suffices (proved below: every iteration strictly
shrinks the string), so this equals the unbounded `while` loop of the
source. -/
def decodeNumeric (s : List Char) : List Char :=
  (decodeNumericFuel (s.length + 1) s).getD s

/-- Model of `decode_html_entities` (src/transcript.rs lines 120-148):
the chain of named substitutions followed by the numeric-reference
loop. -/
def decode_html_entities (text : List Char) : List Char :=
  decodeNumeric (namedPass text)

/-- The `White_Space` character class used by `\s` in the regex crate. -/
def isWhitespaceRust (c : Char) : Bool :=
  let n := c.toNat
  (9 ≤ n ∧ n ≤ 13) ∨ n = 32 ∨ n = 0x85 ∨ n = 0xA0 ∨ n = 0x1680 ∨
    (0x2000 ≤ n ∧ n ≤ 0x200A) ∨ n = 0x2028 ∨ n = 0x2029 ∨ n = 0x202F ∨
    n = 0x205F ∨ n = 0x3000

/-- Lazy capture `(.*?)` up to a literal terminator `post` (which must be
non-empty): the shortest newline-free span followed by `post`, or `none`
when no such span exists at this start position. -/
def captureUpTo (post : List Char) : List Char → Option (List Char)
  | [] => none
  | c :: rest =>
    if post <+: (c :: rest) then some []
    else if c = '\n' then none
    else (captureUpTo post rest).map (fun cap => c :: cap)

/-- Leftmost match of a regex of the shape `pre(.*?)post` with `pre` and
`post` literal: scan for the first position where the whole pattern
matches and return the capture. -/
def firstCapture (pre post : List Char) : List Char → Option (List Char)
  | [] => none
  | c :: rest =>
    match (if pre <+: (c :: rest) then captureUpTo post ((c :: rest).drop pre.length)
           else none) with
    | some cap => some cap
    | none => firstCapture pre post rest

/-- Lazy capture of the inner content of a caption element, up to the
literal `</text>`; also returns the text after the full match so the
iterator can continue there. -/
def captureClose : List Char → Option (List Char × List Char)
  | [] => none
  | c :: rest =>
    if str "</text>" <+: (c :: rest) then some ([], (c :: rest).drop 7)
    else if c = '\n' then none
    else (captureClose rest).map (fun p => (c :: p.1, p.2))

/-- Continuation of the regex `<text.*?>(.*?)</text>` right after the
literal `<text`: the lazy attribute span `.*?` grows one character at a
time (never across a newline), and at each `>` the capture of the inner
content is attempted. -/
def tryAfterTextTag : List Char → Option (List Char × List Char)
  | [] => none
  | c :: rest =>
    if c = '\n' then none
    else if c = '>' then
      match captureClose rest with
      | some p => some p
      | none => tryAfterTextTag rest
    else tryAfterTextTag rest

/-- Leftmost match of `<text.*?>(.*?)</text>` (src/transcript.rs line
98): returns the group-1 capture and the text after the match. -/
def findTextMatch : List Char → Option (List Char × List Char)
  | [] => none
  | c :: rest =>
    match (if str "<text" <+: (c :: rest) then tryAfterTextTag ((c :: rest).drop 5)
           else none) with
    | some p => some p
    | none => findTextMatch rest

/-- Fuelled model of `captures_iter`: successive non-overlapping
leftmost matches, each search resuming after the previous match. -/
def textCapturesFuel : Nat → List Char → List (List Char)
  | 0, _ => []
  | f + 1, s =>
    match findTextMatch s with
    | none => []
    | some p => p.1 :: textCapturesFuel f p.2

/-- All group-1 captures of `<text.*?>(.*?)</text>` over the payload, in
document order.  Fuel `s.length + 1` always suffices (each match
consumes at least one character). -/
def textCaptures (s : List Char) : List (List Char) :=
  textCapturesFuel (s.length + 1) s

/-- Model of `parse_transcript_data` (src/transcript.rs lines 96-117):
decode each captured fragment, append it plus a single space, and fail
when the accumulated transcript is empty. -/
def parse_transcript_data (data : List Char) : Except (List Char) (List Char) :=
  let transcript :=
    ((textCaptures data).map (fun t => decode_html_entities t ++ [' '])).flatten
  if transcript = [] then
    Except.error (str "Failed to extract any text from transcript data")
  else
    Except.ok transcript

/-- The escaped-ampersand sequence `&` that is unescaped in a
matched caption locator. -/
def escAmp : List Char := ['\\', 'u', '0', '0', '2', '6']

/-- The tight caption-locator pattern
`\"captionTracks\":\[\{\"baseUrl\":\"(.*?)\",` is a literal prefix, a
lazy capture and a literal terminator. -/
def tightScan (html : List Char) : Option (List Char) :=
  firstCapture (str "\"captionTracks\":[\x7b\"baseUrl\":\"") (str "\",") html

/-- Skip a (greedy) `\s*` run. -/
def dropWS (s : List Char) : List Char := s.dropWhile isWhitespaceRust

/-- Tail of the loose caption-locator pattern, matched at the current
position: `\"captionTracks\":\s*\[\s*\{\s*\"baseUrl\":\s*\"(.*?)\"`.
Each greedy `\s*` is deterministic because the following literal is not
whitespace. -/
def looseAt (t : List Char) : Option (List Char) :=
  if str "\"captionTracks\":" <+: t then
    match dropWS (t.drop 16) with
    | '[' :: t2 =>
      match dropWS t2 with
      | c :: t3 =>
        if c = Char.ofNat 123 then
          let t4 := dropWS t3
          if str "\"baseUrl\":" <+: t4 then
            match dropWS (t4.drop 10) with
            | '\"' :: t5 => captureUpTo ['\"'] t5
            | _ => none
          else none
        else none
      | [] => none
    | _ => none
  else none

/-- The lazy gap `.*?` of the loose pattern after the literal
`\"playerCaptionsTracklistRenderer\"`: the continuation is tried at
every position, the gap growing one (non-newline) character at a
time. -/
def looseGap : List Char → Option (List Char)
  | [] => none
  | c :: rest =>
    match looseAt (c :: rest) with
    | some cap => some cap
    | none => if c = '\n' then none else looseGap rest

/-- Leftmost match of the loose caption-locator pattern
(src/transcript.rs line 81). -/
def looseScan : List Char → Option (List Char)
  | [] => none
  | c :: rest =>
    match (if str "\"playerCaptionsTracklistRenderer\"" <+: (c :: rest) then
             looseGap ((c :: rest).drop 33)
           else none) with
    | some cap => some cap
    | none => looseScan rest

/-- Model of `extract_captions_url` (src/transcript.rs lines 67-93):
try the tight pattern, then the loose one; on a match unescape `&`
to `&` over the whole captured string; otherwise fail. -/
def extract_captions_url (html : List Char) : Except (List Char) (List Char) :=
  match tightScan html with
  | some url => Except.ok (replaceAll escAmp ['&'] url)
  | none =>
    match looseScan html with
    | some url => Except.ok (replaceAll escAmp ['&'] url)
    | none => Except.error (str "No caption tracks found for this video")

/-- Model of `extract_video_description` (src/transcript.rs lines
174-196).  The first two patterns are `pre(.*?)">` shapes.  The third
pattern, `"description":\s*"(.*?)(?<!\\)(?:\\\\)*"`, contains the
look-behind `(?<!\\)`, which the Rust regex crate rejects:
`Regex::new` returns `Err` (look-around is unsupported), and the `?`
operator propagates that error out of the function.  The unreachable
placeholder return that follows the loop is therefore dead code, and
reaching the third pattern is modelled as the error. -/
def extract_video_description (html : List Char) : Except (List Char) (List Char) :=
  match firstCapture (str "<meta property=\"og:description\" content=\"") (str "\">") html with
  | some d => Except.ok (decode_html_entities d)
  | none =>
    match firstCapture (str "<meta name=\"description\" content=\"") (str "\">") html with
    | some d => Except.ok (decode_html_entities d)
    | none => Except.error (str "Failed to compile description regex")

/-- Characters allowed in the captured identifier: the class
`[^&?/\s]` of the extraction patterns. -/
def validIdChar (c : Char) : Bool :=
  !(c = '&' || c = '?' || c = '/' || isWhitespaceRust c)

/-- Match `[^&?/\s]{n}`: exactly `n` identifier characters; returns the
capture and the remaining text. -/
def matchIdChars : Nat → List Char → Option (List Char × List Char)
  | 0, s => some ([], s)
  | _ + 1, [] => none
  | n + 1, c :: rest =>
    if validIdChar c then
      (matchIdChars n rest).map (fun p => (c :: p.1, p.2))
    else none

/-- Try one alternative of the first pattern at the current position:
the literal, then eleven identifier characters. -/
def tryLit (lit s : List Char) : Option (List Char) :=
  if lit <+: s then (matchIdChars 11 (s.drop lit.length)).map (fun p => p.1)
  else none

/-- The six alternatives of the first pattern of `extract_video_id`
(src/utils.rs line 11), tried in order at one start position. -/
def pat1At (s : List Char) : Option (List Char) :=
  match tryLit (str "youtube.com/watch?v=") s with
  | some r => some r
  | none =>
  match tryLit (str "youtu.be/") s with
  | some r => some r
  | none =>
  match tryLit (str "youtube.com/embed/") s with
  | some r => some r
  | none =>
  match tryLit (str "youtube.com/v/") s with
  | some r => some r
  | none =>
  match tryLit (str "youtube.com/e/") s with
  | some r => some r
  | none => tryLit (str "youtube.com/shorts/") s

/-- Leftmost match of the first pattern of `extract_video_id`. -/
def scanPat1 : List Char → Option (List Char)
  | [] => none
  | c :: rest =>
    match pat1At (c :: rest) with
    | some r => some r
    | none => scanPat1 rest

/-- Continuation of the second pattern
`youtube\.com/watch.*[\?&]v=([^&?/\s]{11})` after its literal: the
greedy `.*` prefers the longest newline-free span, backtracking to the
last `[?&]v=` that is followed by eleven identifier characters. -/
def pat2Tail : List Char → Option (List Char)
  | [] => none
  | c :: rest =>
    match (if c = '\n' then none else pat2Tail rest) with
    | some r => some r
    | none =>
      if c = '?' || c = '&' then
        match rest with
        | 'v' :: '=' :: rest2 => (matchIdChars 11 rest2).map (fun p => p.1)
        | _ => none
      else none

/-- Leftmost match of the second pattern of `extract_video_id`
(src/utils.rs line 12). -/
def scanPat2 : List Char → Option (List Char)
  | [] => none
  | c :: rest =>
    match (if str "youtube.com/watch" <+: (c :: rest) then pat2Tail ((c :: rest).drop 17)
           else none) with
    | some r => some r
    | none => scanPat2 rest

/-- Leftmost match of the third pattern of `extract_video_id`
(src/utils.rs line 13), `youtube\.com/shorts/([^&?/\s]{11})`. -/
def scanPat3 : List Char → Option (List Char)
  | [] => none
  | c :: rest =>
    match tryLit (str "youtube.com/shorts/") (c :: rest) with
    | some r => some r
    | none => scanPat3 rest

/-- Model of `extract_video_id` (src/utils.rs lines 8-26): the three
patterns are tried in order, first match wins, and failure reports the
offending URL. -/
def extract_video_id (url : List Char) : Except (List Char) (List Char) :=
  match scanPat1 url with
  | some id => Except.ok id
  | none =>
  match scanPat2 url with
  | some id => Except.ok id
  | none =>
  match scanPat3 url with
  | some id => Except.ok id
  | none =>
    Except.error (str "Could not extract YouTube video ID from URL: " ++ url)

/-- UTF-8 width of a character, as in Rust `char::len_utf8`. -/
def utf8Len (c : Char) : Nat :=
  if c.toNat < 0x80 then 1
  else if c.toNat < 0x800 then 2
  else if c.toNat < 0x10000 then 3
  else 4

/-- Byte length of a string, as in Rust `str::len`. -/
def byteLen (s : List Char) : Nat := (s.map utf8Len).sum

/-- Model of the byte slice `&s[0..n]`: `some` prefix when byte index
`n` falls on a character boundary, `none` (a panic) when it falls
inside a multi-byte character. -/
def byteTake : Nat → List Char → Option (List Char)
  | 0, _ => some []
  | _ + 1, [] => none
  | n + 1, c :: rest =>
    if utf8Len c ≤ n + 1 then
      (byteTake (n + 1 - utf8Len c) rest).map (fun p => c :: p)
    else none

/-- Model of the pre-hand-off truncation step shared by
`generate_summary` (src/openai.rs lines 24-31) and
`generate_highlights` (src/openai.rs lines 69-74):
`if transcript.len() > 10000 { &transcript[0..10000] } else { transcript }`.
`none` models the byte-slice panic on a non-boundary index. -/
def truncate_transcript (transcript : List Char) : Option (List Char) :=
  if byteLen transcript > 10000 then byteTake 10000 transcript
  else some transcript

/-! ### Properties of `replaceAll` -/

theorem replaceAllF_stable (pat repl : List Char) :
    ∀ f g s, s.length ≤ f → s.length ≤ g →
      replaceAllF pat repl f s = replaceAllF pat repl g s := by
  intro f
  induction f with
  | zero =>
    intro g s hf _
    have hs : s = [] := List.eq_nil_of_length_eq_zero (Nat.le_zero.mp hf)
    subst hs
    cases g <;> rfl
  | succ f ih =>
    intro g s hf hg
    cases s with
    | nil => cases g <;> rfl
    | cons c rest =>
      cases g with
      | zero => simp at hg
      | succ g' =>
        simp only [replaceAllF]
        split
        · next hcond =>
          have hp : 1 ≤ pat.length := by
            cases pat with
            | nil => exact absurd rfl hcond.1
            | cons _ _ => simp
          have hlen : ((c :: rest).drop pat.length).length ≤ f := by
            simp only [List.length_drop, List.length_cons]
            simp only [List.length_cons] at hf
            omega
          have hlen' : ((c :: rest).drop pat.length).length ≤ g' := by
            simp only [List.length_drop, List.length_cons]
            simp only [List.length_cons] at hg
            omega
          rw [ih _ _ hlen hlen']
        · have hlen : rest.length ≤ f := by simp only [List.length_cons] at hf; omega
          have hlen' : rest.length ≤ g' := by simp only [List.length_cons] at hg; omega
          rw [ih _ _ hlen hlen']

theorem replaceAll_nil (pat repl : List Char) : replaceAll pat repl [] = [] := rfl

theorem replaceAll_cons (pat repl : List Char) (c : Char) (rest : List Char) :
    replaceAll pat repl (c :: rest) =
      if pat ≠ [] ∧ pat <+: (c :: rest) then
        repl ++ replaceAll pat repl ((c :: rest).drop pat.length)
      else
        c :: replaceAll pat repl rest := by
  show replaceAllF pat repl ((c :: rest).length) (c :: rest) = _
  simp only [List.length_cons, replaceAllF]
  split
  · next hcond =>
    have hp : 1 ≤ pat.length := by
      cases pat with
      | nil => exact absurd rfl hcond.1
      | cons _ _ => simp
    rw [replaceAllF_stable pat repl rest.length ((c :: rest).drop pat.length).length
      ((c :: rest).drop pat.length) (by simp only [List.length_drop, List.length_cons]; omega)
      le_rfl]
    rfl
  · rw [replaceAllF_stable pat repl rest.length rest.length rest le_rfl le_rfl]
    rfl

theorem replaceAllF_length_le (pat repl : List Char) (hr : repl.length ≤ pat.length) :
    ∀ f s, (replaceAllF pat repl f s).length ≤ s.length := by
  intro f
  induction f with
  | zero => intro s; cases s <;> simp [replaceAllF]
  | succ f ih =>
    intro s
    cases s with
    | nil => simp [replaceAllF]
    | cons c rest =>
      simp only [replaceAllF]
      split
      · next hcond =>
        have hple : pat.length ≤ (c :: rest).length := hcond.2.length_le
        have := ih ((c :: rest).drop pat.length)
        simp only [List.length_append, List.length_drop, List.length_cons] at *
        omega
      · have := ih rest
        simp only [List.length_cons]
        omega

theorem replaceAll_length_le (pat repl : List Char) (hr : repl.length ≤ pat.length)
    (s : List Char) : (replaceAll pat repl s).length ≤ s.length :=
  replaceAllF_length_le pat repl hr s.length s

theorem replaceAll_length_lt (pat repl : List Char) (hne : pat ≠ [])
    (hr : repl.length < pat.length) :
    ∀ s, pat <:+: s → (replaceAll pat repl s).length < s.length := by
  intro s
  induction s with
  | nil =>
    intro hinf
    exact absurd (List.eq_nil_of_infix_nil hinf) hne
  | cons c rest ih =>
    intro hinf
    rw [replaceAll_cons]
    by_cases hp : pat ≠ [] ∧ pat <+: (c :: rest)
    · rw [if_pos hp]
      have hple : pat.length ≤ (c :: rest).length := hp.2.length_le
      have hrec := replaceAll_length_le pat repl (Nat.le_of_lt hr) ((c :: rest).drop pat.length)
      simp only [List.length_append, List.length_drop, List.length_cons] at *
      omega
    · rw [if_neg hp]
      have hnp : ¬ pat <+: (c :: rest) := fun h => hp ⟨hne, h⟩
      have hrest : pat <:+: rest := by
        rcases List.infix_cons_iff.mp hinf with h | h
        · exact absurd h hnp
        · exact h
      simp only [List.length_cons]
      exact Nat.succ_lt_succ (ih hrest)

theorem replaceAll_id_of_no_occ (pat repl : List Char) :
    ∀ s, ¬ pat <:+: s → replaceAll pat repl s = s := by
  intro s
  induction s with
  | nil => intro _; rfl
  | cons c rest ih =>
    intro h
    rw [replaceAll_cons]
    have hnp : ¬ (pat ≠ [] ∧ pat <+: (c :: rest)) := by
      rintro ⟨_, hpre⟩
      exact h hpre.isInfix
    rw [if_neg hnp]
    rw [ih (fun hx => h (List.infix_cons_iff.mpr (Or.inr hx)))]

theorem prefix_of_replaceAll_single (pat : List Char) (b : Char) :
    ∀ s q, b ∉ q → q <+: replaceAll pat [b] s → q <+: s := by
  intro s
  induction s with
  | nil =>
    intro q _ hq
    rw [replaceAll_nil] at hq
    exact hq
  | cons c rest ih =>
    intro q hb hq
    rw [replaceAll_cons] at hq
    by_cases hp : pat ≠ [] ∧ pat <+: (c :: rest)
    · rw [if_pos hp] at hq
      cases q with
      | nil => exact List.nil_prefix
      | cons x q' =>
        obtain ⟨hx, _⟩ := List.cons_prefix_cons.mp hq
        subst hx
        exact absurd (List.mem_cons_self _ _) hb
    · rw [if_neg hp] at hq
      cases q with
      | nil => exact List.nil_prefix
      | cons x q' =>
        obtain ⟨hx, hq'⟩ := List.cons_prefix_cons.mp hq
        subst hx
        have : q' <+: rest := ih q' (fun hm => hb (List.mem_cons_of_mem _ hm)) hq'
        exact List.cons_prefix_cons.mpr ⟨rfl, this⟩

theorem not_infix_replaceAll_aux (pat : List Char) (b : Char) (hne : pat ≠ [])
    (hb : b ∉ pat) :
    ∀ n s, s.length ≤ n → ¬ pat <:+: replaceAll pat [b] s := by
  intro n
  induction n with
  | zero =>
    intro s hs hinf
    have : s = [] := List.eq_nil_of_length_eq_zero (Nat.le_zero.mp hs)
    subst this
    rw [replaceAll_nil] at hinf
    exact hne (List.eq_nil_of_infix_nil hinf)
  | succ n ih =>
    intro s hs hinf
    cases s with
    | nil =>
      rw [replaceAll_nil] at hinf
      exact hne (List.eq_nil_of_infix_nil hinf)
    | cons c rest =>
      rw [replaceAll_cons] at hinf
      by_cases hp : pat ≠ [] ∧ pat <+: (c :: rest)
      · rw [if_pos hp] at hinf
        rcases List.infix_cons_iff.mp hinf with h | h
        · cases pat with
          | nil => exact hne rfl
          | cons x p' =>
            obtain ⟨hx, _⟩ := List.cons_prefix_cons.mp h
            exact hb (by rw [← hx]; exact List.mem_cons_self x p')
        · have hple : 1 ≤ pat.length := by
            cases pat with
            | nil => exact absurd rfl hne
            | cons _ _ => simp
          have hlen : ((c :: rest).drop pat.length).length ≤ n := by
            simp only [List.length_drop, List.length_cons]
            simp only [List.length_cons] at hs
            omega
          exact ih _ hlen h
      · rw [if_neg hp] at hinf
        have hnp : ¬ pat <+: (c :: rest) := fun hx => hp ⟨hne, hx⟩
        rcases List.infix_cons_iff.mp hinf with h | h
        · cases pat with
          | nil => exact hne rfl
          | cons x p' =>
            obtain ⟨hx, hpre⟩ := List.cons_prefix_cons.mp h
            subst hx
            have hbp' : b ∉ p' := fun hm => hb (List.mem_cons_of_mem _ hm)
            have : p' <+: rest := prefix_of_replaceAll_single _ b rest p' hbp' hpre
            exact hnp (List.cons_prefix_cons.mpr ⟨rfl, this⟩)
        · have hlen : rest.length ≤ n := by
            simp only [List.length_cons] at hs
            omega
          exact ih rest hlen h

/-- After `replaceAll pat [b] s`, no occurrence of `pat` remains, provided
`pat` does not contain the replacement character. -/
theorem not_infix_replaceAll (pat : List Char) (b : Char) (hne : pat ≠ [])
    (hb : b ∉ pat) (s : List Char) : ¬ pat <:+: replaceAll pat [b] s :=
  not_infix_replaceAll_aux pat b hne hb s.length s le_rfl

/-! ### Properties of the numeric-entity loop -/

theorem takeWhile_digits_append (d : List Char) (hdig : ∀ c ∈ d, Char.isDigit c)
    (t : List Char) : (d ++ ';' :: t).takeWhile Char.isDigit = d := by
  induction d with
  | nil => simp
  | cons c d' ih =>
    simp only [List.cons_append, List.takeWhile_cons]
    rw [hdig c (List.mem_cons_self _ _)]
    simp only [if_true]
    rw [ih (fun x hx => hdig x (List.mem_cons_of_mem _ hx))]

theorem drop_takeWhile_length (p : Char → Bool) :
    ∀ l : List Char, l.drop (l.takeWhile p).length = l.dropWhile p := by
  intro l
  induction l with
  | nil => rfl
  | cons c rest ih =>
    by_cases h : p c
    · simp [List.takeWhile_cons, List.dropWhile_cons, h, ih]
    · simp [List.takeWhile_cons, List.dropWhile_cons, h]

theorem numRefAt_payload (d t : List Char) (hd : d ≠ [])
    (hdig : ∀ c ∈ d, Char.isDigit c) :
    numRefAt ('&' :: '#' :: (d ++ ';' :: t)) = some d := by
  simp only [numRefAt]
  rw [takeWhile_digits_append d hdig t]
  rw [if_pos ⟨hd, by rw [List.drop_left]; rfl⟩]

theorem numRefAt_some (s ds : List Char) (h : numRefAt s = some ds) :
    ds ≠ [] ∧ (∀ c ∈ ds, Char.isDigit c) ∧ ∃ t, s = '&' :: '#' :: (ds ++ ';' :: t) := by
  unfold numRefAt at h
  split at h
  · next rest =>
    simp only [] at h
    split at h
    · next hcond =>
      injection h with h
      subst h
      refine ⟨hcond.1, fun c hc => List.mem_takeWhile_imp hc, ?_⟩
      obtain ⟨hne, hhead⟩ := hcond
      have hsplit : rest.takeWhile Char.isDigit ++ rest.dropWhile Char.isDigit = rest :=
        List.takeWhile_append_dropWhile _ _
      rw [drop_takeWhile_length] at hhead
      cases hdw : rest.dropWhile Char.isDigit with
      | nil => rw [hdw] at hhead; simp at hhead
      | cons x xs =>
        rw [hdw] at hhead
        simp only [List.head?_cons, Option.some.injEq] at hhead
        subst hhead
        have hrest : rest = rest.takeWhile Char.isDigit ++ ';' :: xs := by
          rw [← hdw]
          exact hsplit.symm
        exact ⟨xs, by rw [← hrest]⟩
    · exact absurd h (by simp)
  · exact absurd h (by simp)

theorem findNumRef_spec : ∀ s ds, findNumRef s = some ds →
    ds ≠ [] ∧ (∀ c ∈ ds, Char.isDigit c) ∧ ('&' :: '#' :: (ds ++ [';'])) <:+: s := by
  intro s
  induction s with
  | nil => intro ds h; simp [findNumRef] at h
  | cons c rest ih =>
    intro ds h
    simp only [findNumRef] at h
    cases hat : numRefAt (c :: rest) with
    | some ds' =>
      rw [hat] at h
      injection h with h
      subst h
      obtain ⟨hne, hdig, t, heq⟩ := numRefAt_some _ _ hat
      refine ⟨hne, hdig, ?_⟩
      rw [heq]
      exact ⟨[], t, by simp [List.append_assoc]⟩
    | none =>
      rw [hat] at h
      obtain ⟨hne, hdig, hinf⟩ := ih ds h
      exact ⟨hne, hdig, List.infix_cons_iff.mpr (Or.inr hinf)⟩

theorem findNumRef_complete (d : List Char) (hd : d ≠ [])
    (hdig : ∀ c ∈ d, Char.isDigit c) :
    ∀ s, ('&' :: '#' :: (d ++ [';'])) <:+: s → findNumRef s ≠ none := by
  intro s
  induction s with
  | nil =>
    intro hinf
    exact absurd (List.eq_nil_of_infix_nil hinf) (by simp)
  | cons c rest ih =>
    intro hinf
    simp only [findNumRef]
    rcases List.infix_cons_iff.mp hinf with h | h
    · obtain ⟨t, ht⟩ := h
      have heq : c :: rest = '&' :: '#' :: (d ++ ';' :: t) := by
        rw [← ht]; simp [List.append_assoc]
      rw [heq, numRefAt_payload d t hd hdig]
      simp
    · cases hat : numRefAt (c :: rest) with
      | some ds => simp
      | none => simpa using ih h

theorem numStep_none_iff (s : List Char) : numStep s = none ↔ findNumRef s = none := by
  unfold numStep
  cases findNumRef s <;> simp

theorem numStep_length (s t : List Char) (h : numStep s = some t) :
    t.length < s.length := by
  unfold numStep at h
  cases hf : findNumRef s with
  | none => rw [hf] at h; exact absurd h (by simp)
  | some ds =>
    rw [hf] at h
    obtain ⟨hne, _, hinf⟩ := findNumRef_spec s ds hf
    have hfullne : ('&' :: '#' :: (ds ++ [';'])) ≠ [] := by simp
    simp only [Option.some.injEq] at h
    subst h
    split
    · exact replaceAll_length_lt _ _ hfullne (by simp) s hinf
    · exact replaceAll_length_lt _ _ hfullne (by simp) s hinf

theorem decodeNumericFuel_isSome : ∀ f s, s.length < f →
    (decodeNumericFuel f s).isSome := by
  intro f
  induction f with
  | zero => intro s h; omega
  | succ f ih =>
    intro s hs
    simp only [decodeNumericFuel]
    cases hstep : numStep s with
    | none => simp
    | some t =>
      have := numStep_length s t hstep
      exact ih t (by omega)

theorem decodeNumericFuel_stable : ∀ f g s, s.length < f → s.length < g →
    decodeNumericFuel f s = decodeNumericFuel g s := by
  intro f
  induction f with
  | zero => intro g s h; omega
  | succ f ih =>
    intro g s hf hg
    cases g with
    | zero => omega
    | succ g' =>
      simp only [decodeNumericFuel]
      cases hstep : numStep s with
      | none => rfl
      | some t =>
        have := numStep_length s t hstep
        exact ih g' t (by omega) (by omega)

theorem decodeNumericFuel_eq_some (s : List Char) :
    decodeNumericFuel (s.length + 1) s = some (decodeNumeric s) := by
  obtain ⟨r, hr⟩ := Option.isSome_iff_exists.mp
    (decodeNumericFuel_isSome (s.length + 1) s (Nat.lt_succ_self _))
  unfold decodeNumeric
  rw [hr]
  rfl

theorem decodeNumeric_eq (s : List Char) :
    decodeNumeric s = match numStep s with
      | none => s
      | some t => decodeNumeric t := by
  cases hstep : numStep s with
  | none =>
    unfold decodeNumeric
    simp only [decodeNumericFuel, hstep]
    rfl
  | some t =>
    have hlt := numStep_length s t hstep
    unfold decodeNumeric
    simp only [decodeNumericFuel, hstep]
    rw [decodeNumericFuel_stable s.length (t.length + 1) t (by omega) (by omega)]
    rw [decodeNumericFuel_eq_some t]
    rfl

theorem decodeNumeric_fix_aux : ∀ n s, s.length ≤ n →
    numStep (decodeNumeric s) = none := by
  intro n
  induction n with
  | zero =>
    intro s hs
    have : s = [] := List.eq_nil_of_length_eq_zero (Nat.le_zero.mp hs)
    subst this
    rfl
  | succ n ih =>
    intro s hs
    rw [decodeNumeric_eq]
    cases hstep : numStep s with
    | none => exact hstep
    | some t =>
      have := numStep_length s t hstep
      exact ih t (by omega)

/-- The numeric-entity loop always reaches a state with no remaining
match. -/
theorem decodeNumeric_fix (s : List Char) : numStep (decodeNumeric s) = none :=
  decodeNumeric_fix_aux s.length s le_rfl

/-! ### Named-pass identity on isolated numeric references -/

theorem not_infix_numref (p d : List Char) (hdig : ∀ c ∈ d, Char.isDigit c)
    (x : Char) (hx : x ∈ p) (h1 : x ≠ '&') (h2 : x ≠ '#') (h3 : x ≠ ';')
    (h4 : Char.isDigit x = false) :
    ¬ p <:+: ('&' :: '#' :: (d ++ [';'])) := by
  intro h
  have hm := h.subset hx
  simp at hm
  rcases hm with h | h | h | h
  · exact h1 h
  · exact h2 h
  · exact absurd (hdig x h) (by simp [h4])
  · exact h3 h

theorem not_infix_39 (d : List Char) (hdig : ∀ c ∈ d, Char.isDigit c)
    (hne : d ≠ ['3', '9']) :
    ¬ (['&', '#', '3', '9', ';'] : List Char) <:+: ('&' :: '#' :: (d ++ [';'])) := by
  rintro ⟨u, v, huv⟩
  cases u with
  | nil =>
    simp only [List.nil_append, List.cons_append, List.cons.injEq] at huv
    obtain ⟨-, -, hrest⟩ := huv
    cases d with
    | nil => simp at hrest
    | cons x d' =>
      simp only [List.cons_append, List.cons.injEq] at hrest
      obtain ⟨hx, hrest⟩ := hrest
      cases d' with
      | nil => simp at hrest
      | cons y d'' =>
        simp only [List.cons_append, List.cons.injEq] at hrest
        obtain ⟨hy, hrest⟩ := hrest
        cases d'' with
        | nil =>
          subst hx
          subst hy
          exact hne rfl
        | cons z d''' =>
          simp only [List.cons_append, List.cons.injEq] at hrest
          obtain ⟨hz, -⟩ := hrest
          have hdz := hdig z (by simp)
          rw [← hz] at hdz
          exact absurd hdz (by decide)
  | cons a u' =>
    simp only [List.cons_append, List.cons.injEq] at huv
    obtain ⟨-, huv⟩ := huv
    have hmem : '&' ∈ (u' ++ ['&', '#', '3', '9', ';']) ++ v := by
      simp [List.mem_append]
    rw [huv] at hmem
    simp only [List.mem_cons, List.mem_append, List.mem_singleton] at hmem
    rcases hmem with h | h | h
    · exact absurd h (by decide)
    · exact absurd (hdig '&' h) (by decide)
    · exact absurd h (by decide)

theorem namedPass_numref (d : List Char) (hdig : ∀ c ∈ d, Char.isDigit c)
    (hne : d ≠ ['3', '9']) :
    namedPass ('&' :: '#' :: (d ++ [';'])) = '&' :: '#' :: (d ++ [';']) := by
  simp only [namedPass]
  rw [replaceAll_id_of_no_occ (str "&quot;") (str "\"") _
        (not_infix_numref _ d hdig 'q' (by decide) (by decide) (by decide) (by decide) (by decide)),
      replaceAll_id_of_no_occ (str "&amp;") (str "&") _
        (not_infix_numref _ d hdig 'a' (by decide) (by decide) (by decide) (by decide) (by decide)),
      replaceAll_id_of_no_occ (str "&lt;") (str "<") _
        (not_infix_numref _ d hdig 'l' (by decide) (by decide) (by decide) (by decide) (by decide)),
      replaceAll_id_of_no_occ (str "&gt;") (str ">") _
        (not_infix_numref _ d hdig 'g' (by decide) (by decide) (by decide) (by decide) (by decide)),
      replaceAll_id_of_no_occ ['&', '#', '3', '9', ';'] [Char.ofNat 39] _
        (not_infix_39 d hdig hne),
      replaceAll_id_of_no_occ (str "&apos;") [Char.ofNat 39] _
        (not_infix_numref _ d hdig 'a' (by decide) (by decide) (by decide) (by decide) (by decide)),
      replaceAll_id_of_no_occ ['&', '#', 'x', '2', '7', ';'] [Char.ofNat 39] _
        (not_infix_numref _ d hdig 'x' (by decide) (by decide) (by decide) (by decide) (by decide)),
      replaceAll_id_of_no_occ (str "&#x2F;") (str "/") _
        (not_infix_numref _ d hdig 'x' (by decide) (by decide) (by decide) (by decide) (by decide)),
      replaceAll_id_of_no_occ (str "<br/>") (str "\n") _
        (not_infix_numref _ d hdig 'b' (by decide) (by decide) (by decide) (by decide) (by decide)),
      replaceAll_id_of_no_occ (str "<br />") (str "\n") _
        (not_infix_numref _ d hdig 'b' (by decide) (by decide) (by decide) (by decide) (by decide))]

/-! ### Claims about the entity decoder -/

/-- Claim C1, counterexample: the claim states that
`decode("&amp;lt;")` yields the literal sequence `&lt;`; on the code it
does not, because the named substitutions are chained over the whole
string and the output of the `&amp;` substitution is rescanned by the
later `&lt;` substitution. -/
theorem C1_counterexample : decode_html_entities (str "&amp;lt;") ≠ str "&lt;" := by
  decide

/-- Claim C1 as amended: the named substitutions are each applied once,
but sequentially over the whole string, so decoding `&amp;` feeds the
substitutions that come later in the chain: `decode("&amp;lt;")`
yields `<`, not the literal `&lt;`. -/
theorem C1_amended : decode_html_entities (str "&amp;lt;") = str "<" := by
  decide

/-- Claim C3, counterexample: the claim states that every malformed or
undecodable numeric reference occurrence is deleted rather than left in
the output, but the reference `&#x;` — the spec's own example of an
unparsable reference — is left in the output unchanged: the regex
`&#(\d+);` requires at least one decimal digit, so the numeric loop
never matches it, and no named substitution touches it either. -/
theorem C3_counterexample :
    decode_html_entities (str "&#x;") = str "&#x;" ∧
      decode_html_entities (str "&#x;") ≠ [] := by
  exact ⟨by decide, by decide⟩

/-- Claim C3 as amended: `decode("&#65;")` yields `"A"`; an occurrence
of a numeric character reference that the regex `&#(\d+);` matches (a
non-empty decimal digit run followed by `;`) whose digits overflow
`u32` or denote an invalid code point is deleted, yielding the empty
string at that position; a malformed reference the regex does not
match, such as `&#x;` (no decimal digits), is left in the output
unchanged. -/
theorem C3_numeric_refs (d : List Char) (hd : d ≠ [])
    (hdig : ∀ c ∈ d, Char.isDigit c)
    (hbad : 4294967295 < digitsVal d ∨ ¬ Nat.isValidChar (digitsVal d)) :
    decode_html_entities ('&' :: '#' :: (d ++ [';'])) = [] ∧
      decode_html_entities (str "&#65;") = str "A" ∧
      decode_html_entities (str "&#x;") = str "&#x;" := by
  refine ⟨?_, by decide, by decide⟩
  have hne39 : d ≠ ['3', '9'] := by
    rintro rfl
    exact absurd hbad (by decide)
  show decodeNumeric (namedPass ('&' :: '#' :: (d ++ [';']))) = []
  rw [namedPass_numref d hdig hne39]
  have hfind : findNumRef ('&' :: '#' :: (d ++ [';'])) = some d := by
    simp only [findNumRef]
    rw [numRefAt_payload d [] hd hdig]
  have hcond : ¬ (digitsVal d ≤ 4294967295 ∧ Nat.isValidChar (digitsVal d)) := by
    rintro ⟨hle, hvalid⟩
    rcases hbad with h | h
    · omega
    · exact h hvalid
  have hstep : numStep ('&' :: '#' :: (d ++ [';'])) =
      some (replaceAll ('&' :: '#' :: (d ++ [';'])) [] ('&' :: '#' :: (d ++ [';']))) := by
    unfold numStep
    rw [hfind]
    simp only []
    rw [if_neg hcond]
  have hrepl : replaceAll ('&' :: '#' :: (d ++ [';'])) [] ('&' :: '#' :: (d ++ [';'])) = [] := by
    rw [replaceAll_cons]
    rw [if_pos ⟨by simp, List.prefix_refl _⟩]
    rw [List.drop_length]
    rfl
  rw [decodeNumeric_eq, hstep, hrepl]
  rfl

/-- Claim C3 witness: the surrogate code point 55296 (0xD800) is
rejected by `char::from_u32`, so `decode("&#55296;")` deletes the
reference and yields the empty string, while `decode("&#65;")` yields
`"A"` and `decode("&#x;")` is left unchanged. -/
theorem C3_numeric_refs_witness :
    decode_html_entities ('&' :: '#' :: ((['5', '5', '2', '9', '6'] : List Char) ++ [';'])) = [] ∧
      decode_html_entities (str "&#65;") = str "A" ∧
      decode_html_entities (str "&#x;") = str "&#x;" :=
  C3_numeric_refs ['5', '5', '2', '9', '6'] (by decide) (by decide) (by decide)

/-- Claim C5: the numeric-reference loop of the entity decoder
terminates on every input: any fuel beyond the length of the string
being rescanned makes the fuelled loop exit normally with the decoder's
result, because every iteration strictly shrinks the string. -/
theorem C5_decoder_terminates (text : List Char) (f : Nat)
    (hf : (namedPass text).length < f) :
    decodeNumericFuel f (namedPass text) = some (decode_html_entities text) := by
  rw [decodeNumericFuel_stable f ((namedPass text).length + 1) (namedPass text) hf
    (Nat.lt_succ_self _)]
  exact decodeNumericFuel_eq_some (namedPass text)

/-- Claim C5 witness at the concrete input `&#65;`. -/
theorem C5_decoder_terminates_witness :
    decodeNumericFuel 6 (namedPass (str "&#65;")) = some (decode_html_entities (str "&#65;")) :=
  C5_decoder_terminates (str "&#65;") 6 (by decide)

/-- Claim C10: no decimal numeric character reference `&#<digits>;`
survives in the output of the entity decoder: the loop only exits when
the reference regex no longer matches, and a surviving occurrence
would still match. -/
theorem C10_no_refs_survive (s d : List Char) (hd : d ≠ [])
    (hdig : ∀ c ∈ d, Char.isDigit c) :
    ¬ ('&' :: '#' :: (d ++ [';'])) <:+: decode_html_entities s := by
  intro hinf
  have h1 := findNumRef_complete d hd hdig (decode_html_entities s) hinf
  have h2 := decodeNumeric_fix (namedPass s)
  rw [numStep_none_iff] at h2
  exact h1 h2

/-- Claim C10 witness at the concrete input `x&#65;y`. -/
theorem C10_no_refs_survive_witness :
    ¬ ('&' :: '#' :: ((['6', '5'] : List Char) ++ [';'])) <:+:
        decode_html_entities (str "x&#65;y") :=
  C10_no_refs_survive (str "x&#65;y") ['6', '5'] (by decide) (by decide)

/-! ### Claims about description extraction and truncation -/

/-- Claim C2, code bug: description extraction does not always succeed.
On any markup that matches neither of the first two description
patterns — the empty markup here — the loop reaches the third pattern,
whose look-behind `(?<!\\)` the regex engine rejects at compile time,
and the compile error propagates out instead of the placeholder
description. -/
theorem C2_description_error :
    extract_video_description (str "") =
      Except.error (str "Failed to compile description regex") := rfl

theorem byteLen_cons (c : Char) (l : List Char) :
    byteLen (c :: l) = utf8Len c + byteLen l := by
  simp [byteLen]

theorem byteLen_append (a b : List Char) :
    byteLen (a ++ b) = byteLen a + byteLen b := by
  simp [byteLen]

theorem byteLen_replicate (k : Nat) : byteLen (List.replicate k 'a') = k := by
  induction k with
  | zero => rfl
  | succ k ih =>
    rw [List.replicate_succ, byteLen_cons, ih]
    have h : utf8Len 'a' = 1 := by decide
    omega

theorem byteTake_replicate (k n : Nat) (hn : 1 ≤ n) (t : List Char) :
    byteTake (k + n) (List.replicate k 'a' ++ t) =
      (byteTake n t).map (fun p => List.replicate k 'a' ++ p) := by
  induction k with
  | zero =>
    simp only [List.replicate, List.nil_append, Nat.zero_add]
    cases byteTake n t <;> simp
  | succ k ih =>
    have h : k + 1 + n = (k + n) + 1 := by omega
    rw [h, List.replicate_succ, List.cons_append]
    simp only [byteTake]
    rw [show utf8Len 'a' = 1 from by decide]
    rw [if_pos (by omega)]
    rw [show k + n + 1 - 1 = k + n from by omega]
    rw [ih]
    cases byteTake n t <;> simp [List.replicate_succ]

/-- Claim C4, code bug: the truncation step is not total.  The byte
slice `&transcript[0..10000]` panics when byte index 10000 falls inside
a multi-byte character: for 9999 copies of `a` followed by the
two-byte character `é`, the transcript is 10001 bytes long, so the
slice is taken, and index 10000 splits the `é`. -/
theorem C4_truncation_panic :
    truncate_transcript (List.replicate 9999 'a' ++ ['é']) = none := by
  have hlen : byteLen (List.replicate 9999 'a' ++ ['é']) = 10001 := by
    rw [byteLen_append, byteLen_replicate]
    decide
  unfold truncate_transcript
  rw [hlen]
  rw [if_pos (by omega)]
  have h := byteTake_replicate 9999 1 (by omega) ['é']
  rw [show (9999 : Nat) + 1 = 10000 from by norm_num] at h
  rw [h]
  rw [show byteTake 1 ['é'] = none from by decide]
  rfl

/-! ### Properties of the caption-element iterator -/

theorem captureClose_length : ∀ s cap after, captureClose s = some (cap, after) →
    after.length + 7 ≤ s.length := by
  intro s
  induction s with
  | nil => intro cap after h; simp [captureClose] at h
  | cons c rest ih =>
    intro cap after h
    simp only [captureClose] at h
    split at h
    · next hpre =>
      simp only [Option.some.injEq, Prod.mk.injEq] at h
      obtain ⟨-, h2⟩ := h
      subst h2
      have h7 : (str "</text>").length = 7 := rfl
      have hle := hpre.length_le
      rw [h7] at hle
      simp only [List.length_drop, List.length_cons]
      simp only [List.length_cons] at hle
      omega
    · split at h
      · simp at h
      · cases hc : captureClose rest with
        | none => rw [hc] at h; simp at h
        | some p =>
          rw [hc] at h
          simp only [Option.map_some', Option.some.injEq, Prod.mk.injEq] at h
          obtain ⟨-, h2⟩ := h
          subst h2
          have := ih p.1 p.2 (by rw [hc])
          simp only [List.length_cons]
          omega

theorem tryAfterTextTag_length : ∀ s cap after, tryAfterTextTag s = some (cap, after) →
    after.length < s.length := by
  intro s
  induction s with
  | nil => intro cap after h; simp [tryAfterTextTag] at h
  | cons c rest ih =>
    intro cap after h
    simp only [tryAfterTextTag] at h
    by_cases hn : c = '\n'
    · rw [if_pos hn] at h
      exact absurd h (by simp)
    · rw [if_neg hn] at h
      by_cases hgt : c = '>'
      · rw [if_pos hgt] at h
        cases hc : captureClose rest with
        | some q =>
          rw [hc] at h
          injection h with h
          have := captureClose_length rest cap after (by rw [hc, h])
          simp only [List.length_cons]
          omega
        | none =>
          rw [hc] at h
          have := ih cap after h
          simp only [List.length_cons]
          omega
      · rw [if_neg hgt] at h
        have := ih cap after h
        simp only [List.length_cons]
        omega

theorem findTextMatch_length : ∀ s cap after, findTextMatch s = some (cap, after) →
    after.length < s.length := by
  intro s
  induction s with
  | nil => intro cap after h; simp [findTextMatch] at h
  | cons c rest ih =>
    intro cap after h
    simp only [findTextMatch] at h
    by_cases hpre : str "<text" <+: (c :: rest)
    · rw [if_pos hpre] at h
      cases ht : tryAfterTextTag ((c :: rest).drop 5) with
      | some q =>
        rw [ht] at h
        injection h with h
        have h1 := tryAfterTextTag_length _ cap after (by rw [ht, h])
        have h2 : ((c :: rest).drop 5).length ≤ (c :: rest).length := by
          simp only [List.length_drop, List.length_cons]
          omega
        omega
      | none =>
        rw [ht] at h
        have := ih cap after h
        simp only [List.length_cons]
        omega
    · rw [if_neg hpre] at h
      have := ih cap after h
      simp only [List.length_cons]
      omega

theorem textCapturesFuel_stable : ∀ f g s, s.length < f → s.length < g →
    textCapturesFuel f s = textCapturesFuel g s := by
  intro f
  induction f with
  | zero => intro g s h; omega
  | succ f ih =>
    intro g s hf hg
    cases g with
    | zero => omega
    | succ g' =>
      simp only [textCapturesFuel]
      cases hm : findTextMatch s with
      | none => rfl
      | some p =>
        have := findTextMatch_length s p.1 p.2 (by rw [hm])
        show p.1 :: textCapturesFuel f p.2 = p.1 :: textCapturesFuel g' p.2
        rw [ih g' p.2 (by omega) (by omega)]

theorem textCaptures_eq (s : List Char) :
    textCaptures s = match findTextMatch s with
      | none => []
      | some p => p.1 :: textCaptures p.2 := by
  show textCapturesFuel (s.length + 1) s = _
  cases h : findTextMatch s with
  | none => simp only [textCapturesFuel, h]
  | some p =>
    have hlt := findTextMatch_length s p.1 p.2 (by rw [h])
    simp only [textCapturesFuel, h]
    rw [textCapturesFuel_stable s.length (p.2.length + 1) p.2 (by omega) (by omega)]
    rfl

theorem closeTag_eq : str "</text>" = ['<', '/', 't', 'e', 'x', 't', '>'] := rfl

theorem captureClose_payload (f : List Char) (hf : ∀ c ∈ f, c ≠ '<' ∧ c ≠ '\n')
    (rest : List Char) :
    captureClose (f ++ (str "</text>" ++ rest)) = some (f, rest) := by
  induction f with
  | nil =>
    simp only [List.nil_append]
    rw [closeTag_eq]
    simp only [List.cons_append]
    simp only [captureClose]
    rw [if_pos (by rw [closeTag_eq]; simp [List.cons_prefix_cons])]
    simp
  | cons c f' ih =>
    have hc := hf c (List.mem_cons_self _ _)
    simp only [List.cons_append]
    simp only [captureClose]
    rw [if_neg (fun hpre => hc.1 (by
      rw [closeTag_eq] at hpre
      exact (List.cons_prefix_cons.mp hpre).1.symm))]
    rw [if_neg hc.2]
    rw [ih (fun x hx => hf x (List.mem_cons_of_mem _ hx))]
    rfl

theorem findTextMatch_cons (c : Char) (rest : List Char) :
    findTextMatch (c :: rest) =
      match (if str "<text" <+: (c :: rest) then tryAfterTextTag ((c :: rest).drop 5)
             else none) with
      | some p => some p
      | none => findTextMatch rest := rfl

theorem findTextMatch_elem (f : List Char) (hf : ∀ c ∈ f, c ≠ '<' ∧ c ≠ '\n')
    (rest : List Char) :
    findTextMatch (str "<text>" ++ (f ++ (str "</text>" ++ rest))) = some (f, rest) := by
  have h1 : str "<text>" ++ (f ++ (str "</text>" ++ rest)) =
      '<' :: ('t' :: 'e' :: 'x' :: 't' :: '>' :: (f ++ (str "</text>" ++ rest))) := rfl
  rw [h1, findTextMatch_cons]
  rw [if_pos (by rw [show str "<text" = ['<', 't', 'e', 'x', 't'] from rfl]; simp [List.cons_prefix_cons])]
  simp only [List.drop_succ_cons, List.drop_zero]
  simp only [tryAfterTextTag]
  simp only [if_true]
  rw [captureClose_payload f hf rest]
  rw [if_neg (show ('>' : Char) ≠ '\n' from by decide)]

/-- One caption element of the payload, as assembled for the
normalizer's well-formed-input theorem. -/
def textElem (f : List Char) : List Char := str "<text>" ++ (f ++ str "</text>")

/-- A caption payload made of consecutive caption elements. -/
def joinPayload (fs : List (List Char)) : List Char := (fs.map textElem).flatten

theorem textElem_append (f rest : List Char) :
    textElem f ++ rest = str "<text>" ++ (f ++ (str "</text>" ++ rest)) := by
  simp [textElem, List.append_assoc]

theorem textCaptures_payload : ∀ fs : List (List Char),
    (∀ f ∈ fs, ∀ c ∈ f, c ≠ '<' ∧ c ≠ '\n') →
    textCaptures (joinPayload fs) = fs := by
  intro fs
  induction fs with
  | nil => intro _; rfl
  | cons f fs' ih =>
    intro hf
    have hjoin : joinPayload (f :: fs') = textElem f ++ joinPayload fs' := by
      simp [joinPayload]
    rw [hjoin, textCaptures_eq, textElem_append,
      findTextMatch_elem f (hf f (List.mem_cons_self _ _)) (joinPayload fs')]
    show f :: textCaptures (joinPayload fs') = f :: fs'
    rw [ih (fun g hg => hf g (List.mem_cons_of_mem _ hg))]

theorem transcript_flatten_nil (caps : List (List Char)) :
    ((caps.map (fun t => decode_html_entities t ++ [' '])).flatten = [] ↔ caps = []) := by
  cases caps with
  | nil => simp
  | cons c cs => simp

/-- Claim C6: the normalizer fails (with the empty-transcript error)
exactly when zero caption fragments are captured, and whenever it
succeeds the returned transcript is non-empty. -/
theorem C6_empty_transcript (data t : List Char) :
    (parse_transcript_data data =
        Except.error (str "Failed to extract any text from transcript data") ↔
      textCaptures data = []) ∧
      (parse_transcript_data data = Except.ok t → t ≠ []) := by
  unfold parse_transcript_data
  by_cases hL : ((textCaptures data).map (fun t => decode_html_entities t ++ [' '])).flatten = []
  · rw [if_pos hL]
    refine ⟨⟨fun _ => (transcript_flatten_nil _).mp hL, fun _ => rfl⟩, fun h => ?_⟩
    exact absurd h (by simp)
  · rw [if_neg hL]
    refine ⟨⟨fun h => absurd h (by simp), fun h => ?_⟩, fun h => ?_⟩
    · exact absurd ((transcript_flatten_nil _).mpr h) hL
    · injection h with h
      exact fun hnil => hL (h.trans hnil)

/-- Claim C6 witness: on a payload with one fragment the normalizer
succeeds with the non-empty transcript `Hi `. -/
theorem C6_empty_transcript_witness :
    (parse_transcript_data (str "<text>Hi</text>") =
        Except.error (str "Failed to extract any text from transcript data") ↔
      textCaptures (str "<text>Hi</text>") = []) ∧
      (parse_transcript_data (str "<text>Hi</text>") = Except.ok (str "Hi ") →
        str "Hi " ≠ []) :=
  C6_empty_transcript (str "<text>Hi</text>") (str "Hi ")

/-- Claim C7: on a payload of well-formed caption elements the
normalizer captures every fragment in document order, decodes each one,
and appends it followed by a single space. -/
theorem C7_fragments_joined (fs : List (List Char)) (hne : fs ≠ [])
    (hf : ∀ f ∈ fs, ∀ c ∈ f, c ≠ '<' ∧ c ≠ '\n') :
    parse_transcript_data (joinPayload fs) =
      Except.ok ((fs.map (fun f => decode_html_entities f ++ [' '])).flatten) := by
  unfold parse_transcript_data
  rw [textCaptures_payload fs hf]
  rw [if_neg (fun h => hne ((transcript_flatten_nil fs).mp h))]

/-- Claim C7 witness: the payload `<text>Hello</text><text>World</text>`
normalizes to `Hello World `. -/
theorem C7_fragments_joined_witness :
    parse_transcript_data (str "<text>Hello</text><text>World</text>") =
      Except.ok (str "Hello World ") := by
  have h := C7_fragments_joined [str "Hello", str "World"] (by decide) (by decide)
  exact h

/-! ### Properties of the identifier resolver -/

theorem matchIdChars_exact : ∀ id t : List Char, (∀ c ∈ id, validIdChar c) →
    matchIdChars id.length (id ++ t) = some (id, t) := by
  intro id
  induction id with
  | nil => intro t _; rfl
  | cons c id' ih =>
    intro t hv
    simp only [List.length_cons, List.cons_append, matchIdChars, List.append_eq]
    rw [if_pos (hv c (List.mem_cons_self _ _))]
    rw [ih t (fun x hx => hv x (List.mem_cons_of_mem _ hx))]
    rfl

theorem matchIdChars_full (id : List Char) (hlen : id.length = 11)
    (hv : ∀ c ∈ id, validIdChar c) : matchIdChars 11 id = some (id, []) := by
  have h := matchIdChars_exact id [] hv
  rw [List.append_nil] at h
  rw [← hlen]
  exact h

theorem not_prefix_append (p q t : List Char) (h1 : ¬ p <+: q) (h2 : ¬ q <+: p) :
    ¬ p <+: (q ++ t) := by
  induction p generalizing q with
  | nil => exact absurd List.nil_prefix h1
  | cons a p' ih =>
    cases q with
    | nil => exact absurd List.nil_prefix h2
    | cons b q' =>
      intro hpre
      simp only [List.cons_append] at hpre
      obtain ⟨hab, hpre'⟩ := List.cons_prefix_cons.mp hpre
      subst hab
      refine ih q' ?_ ?_ hpre'
      · exact fun hx => h1 (List.cons_prefix_cons.mpr ⟨rfl, hx⟩)
      · exact fun hx => h2 (List.cons_prefix_cons.mpr ⟨rfl, hx⟩)

theorem tryLit_append (lit id : List Char) (hlen : id.length = 11)
    (hv : ∀ c ∈ id, validIdChar c) : tryLit lit (lit ++ id) = some id := by
  unfold tryLit
  rw [if_pos (List.prefix_append lit id)]
  rw [List.drop_left]
  rw [matchIdChars_full id hlen hv]
  rfl

theorem tryLit_fail (lit q t : List Char) (h1 : ¬ lit <+: q) (h2 : ¬ q <+: lit) :
    tryLit lit (q ++ t) = none := by
  unfold tryLit
  rw [if_neg (not_prefix_append lit q t h1 h2)]

theorem tryLit_head (a : Char) (lit' : List Char) (c : Char) (s : List Char)
    (h : a ≠ c) : tryLit (a :: lit') (c :: s) = none := by
  unfold tryLit
  rw [if_neg (fun hp => h (List.cons_prefix_cons.mp hp).1)]

theorem pat1At_head (c : Char) (s : List Char) (h : c ≠ 'y') : pat1At (c :: s) = none := by
  unfold pat1At
  rw [show str "youtube.com/watch?v=" = 'y' :: str "outube.com/watch?v=" from rfl,
      tryLit_head _ _ _ _ h.symm,
      show str "youtu.be/" = 'y' :: str "outu.be/" from rfl,
      tryLit_head _ _ _ _ h.symm,
      show str "youtube.com/embed/" = 'y' :: str "outube.com/embed/" from rfl,
      tryLit_head _ _ _ _ h.symm,
      show str "youtube.com/v/" = 'y' :: str "outube.com/v/" from rfl,
      tryLit_head _ _ _ _ h.symm,
      show str "youtube.com/e/" = 'y' :: str "outube.com/e/" from rfl,
      tryLit_head _ _ _ _ h.symm,
      show str "youtube.com/shorts/" = 'y' :: str "outube.com/shorts/" from rfl,
      tryLit_head _ _ _ _ h.symm]

theorem scanPat1_cons (c : Char) (s : List Char) :
    scanPat1 (c :: s) = match pat1At (c :: s) with
      | some r => some r
      | none => scanPat1 s := rfl

theorem scanPat1_skip (pre s : List Char) (h : ∀ c ∈ pre, c ≠ 'y') :
    scanPat1 (pre ++ s) = scanPat1 s := by
  induction pre with
  | nil => rfl
  | cons c pre' ih =>
    simp only [List.cons_append]
    rw [scanPat1_cons, pat1At_head c _ (h c (List.mem_cons_self _ _))]
    exact ih (fun x hx => h x (List.mem_cons_of_mem _ hx))

theorem scanPat1_of_pat1At (s r : List Char) (h : pat1At s = some r) :
    scanPat1 s = some r := by
  cases s with
  | nil =>
    rw [show pat1At [] = none from rfl] at h
    exact absurd h (by simp)
  | cons c rest => rw [scanPat1_cons, h]

theorem extract_via_pat1 (pre lit id : List Char) (hpre : ∀ c ∈ pre, c ≠ 'y')
    (h : pat1At (lit ++ id) = some id) :
    extract_video_id (pre ++ (lit ++ id)) = Except.ok id := by
  have h1 : scanPat1 (pre ++ (lit ++ id)) = some id := by
    rw [scanPat1_skip pre _ hpre]
    exact scanPat1_of_pat1At _ _ h
  unfold extract_video_id
  rw [h1]

theorem pat1At_watch (id : List Char) (hlen : id.length = 11)
    (hv : ∀ c ∈ id, validIdChar c) :
    pat1At (str "youtube.com/watch?v=" ++ id) = some id := by
  unfold pat1At
  rw [tryLit_append _ id hlen hv]

theorem pat1At_be (id : List Char) (hlen : id.length = 11)
    (hv : ∀ c ∈ id, validIdChar c) :
    pat1At (str "youtu.be/" ++ id) = some id := by
  unfold pat1At
  rw [tryLit_fail (str "youtube.com/watch?v=") (str "youtu.be/") id (by decide) (by decide),
      tryLit_append _ id hlen hv]

theorem pat1At_embed (id : List Char) (hlen : id.length = 11)
    (hv : ∀ c ∈ id, validIdChar c) :
    pat1At (str "youtube.com/embed/" ++ id) = some id := by
  unfold pat1At
  rw [tryLit_fail (str "youtube.com/watch?v=") (str "youtube.com/embed/") id (by decide) (by decide),
      tryLit_fail (str "youtu.be/") (str "youtube.com/embed/") id (by decide) (by decide),
      tryLit_append _ id hlen hv]

theorem pat1At_v (id : List Char) (hlen : id.length = 11)
    (hv : ∀ c ∈ id, validIdChar c) :
    pat1At (str "youtube.com/v/" ++ id) = some id := by
  unfold pat1At
  rw [tryLit_fail (str "youtube.com/watch?v=") (str "youtube.com/v/") id (by decide) (by decide),
      tryLit_fail (str "youtu.be/") (str "youtube.com/v/") id (by decide) (by decide),
      tryLit_fail (str "youtube.com/embed/") (str "youtube.com/v/") id (by decide) (by decide),
      tryLit_append _ id hlen hv]

theorem pat1At_e (id : List Char) (hlen : id.length = 11)
    (hv : ∀ c ∈ id, validIdChar c) :
    pat1At (str "youtube.com/e/" ++ id) = some id := by
  unfold pat1At
  rw [tryLit_fail (str "youtube.com/watch?v=") (str "youtube.com/e/") id (by decide) (by decide),
      tryLit_fail (str "youtu.be/") (str "youtube.com/e/") id (by decide) (by decide),
      tryLit_fail (str "youtube.com/embed/") (str "youtube.com/e/") id (by decide) (by decide),
      tryLit_fail (str "youtube.com/v/") (str "youtube.com/e/") id (by decide) (by decide),
      tryLit_append _ id hlen hv]

theorem pat1At_shorts (id : List Char) (hlen : id.length = 11)
    (hv : ∀ c ∈ id, validIdChar c) :
    pat1At (str "youtube.com/shorts/" ++ id) = some id := by
  unfold pat1At
  rw [tryLit_fail (str "youtube.com/watch?v=") (str "youtube.com/shorts/") id (by decide) (by decide),
      tryLit_fail (str "youtu.be/") (str "youtube.com/shorts/") id (by decide) (by decide),
      tryLit_fail (str "youtube.com/embed/") (str "youtube.com/shorts/") id (by decide) (by decide),
      tryLit_fail (str "youtube.com/v/") (str "youtube.com/shorts/") id (by decide) (by decide),
      tryLit_fail (str "youtube.com/e/") (str "youtube.com/shorts/") id (by decide) (by decide),
      tryLit_append _ id hlen hv]

/-- Claim C8: for every 11-character identifier made of characters the
extraction class accepts, each supported URL shape resolves to that
same identifier, and an unrelated-host URL fails with the
identifier-not-found error. -/
theorem C8_resolve_shapes (id : List Char) (hlen : id.length = 11)
    (hv : ∀ c ∈ id, validIdChar c) :
    extract_video_id (str "https://www.youtube.com/watch?v=" ++ id) = Except.ok id ∧
    extract_video_id (str "https://youtu.be/" ++ id) = Except.ok id ∧
    extract_video_id (str "https://www.youtube.com/embed/" ++ id) = Except.ok id ∧
    extract_video_id (str "https://www.youtube.com/v/" ++ id) = Except.ok id ∧
    extract_video_id (str "https://www.youtube.com/e/" ++ id) = Except.ok id ∧
    extract_video_id (str "https://www.youtube.com/shorts/" ++ id) = Except.ok id ∧
    extract_video_id (str "https://invalid-url.com") =
      Except.error (str "Could not extract YouTube video ID from URL: https://invalid-url.com") := by
  refine ⟨?_, ?_, ?_, ?_, ?_, ?_, ?_⟩
  · rw [show str "https://www.youtube.com/watch?v=" ++ id =
      str "https://www." ++ (str "youtube.com/watch?v=" ++ id) from by
        rw [show str "https://www.youtube.com/watch?v=" = str "https://www." ++ str "youtube.com/watch?v=" from rfl,
          List.append_assoc]]
    exact extract_via_pat1 _ _ id (by decide) (pat1At_watch id hlen hv)
  · rw [show str "https://youtu.be/" ++ id =
      str "https://" ++ (str "youtu.be/" ++ id) from by
        rw [show str "https://youtu.be/" = str "https://" ++ str "youtu.be/" from rfl,
          List.append_assoc]]
    exact extract_via_pat1 _ _ id (by decide) (pat1At_be id hlen hv)
  · rw [show str "https://www.youtube.com/embed/" ++ id =
      str "https://www." ++ (str "youtube.com/embed/" ++ id) from by
        rw [show str "https://www.youtube.com/embed/" = str "https://www." ++ str "youtube.com/embed/" from rfl,
          List.append_assoc]]
    exact extract_via_pat1 _ _ id (by decide) (pat1At_embed id hlen hv)
  · rw [show str "https://www.youtube.com/v/" ++ id =
      str "https://www." ++ (str "youtube.com/v/" ++ id) from by
        rw [show str "https://www.youtube.com/v/" = str "https://www." ++ str "youtube.com/v/" from rfl,
          List.append_assoc]]
    exact extract_via_pat1 _ _ id (by decide) (pat1At_v id hlen hv)
  · rw [show str "https://www.youtube.com/e/" ++ id =
      str "https://www." ++ (str "youtube.com/e/" ++ id) from by
        rw [show str "https://www.youtube.com/e/" = str "https://www." ++ str "youtube.com/e/" from rfl,
          List.append_assoc]]
    exact extract_via_pat1 _ _ id (by decide) (pat1At_e id hlen hv)
  · rw [show str "https://www.youtube.com/shorts/" ++ id =
      str "https://www." ++ (str "youtube.com/shorts/" ++ id) from by
        rw [show str "https://www.youtube.com/shorts/" = str "https://www." ++ str "youtube.com/shorts/" from rfl,
          List.append_assoc]]
    exact extract_via_pat1 _ _ id (by decide) (pat1At_shorts id hlen hv)
  · rfl

/-- Claim C8 witness at the identifier `dQw4w9WgXcQ`. -/
theorem C8_resolve_shapes_witness :
    extract_video_id (str "https://www.youtube.com/watch?v=" ++ str "dQw4w9WgXcQ") =
      Except.ok (str "dQw4w9WgXcQ") ∧
    extract_video_id (str "https://youtu.be/" ++ str "dQw4w9WgXcQ") =
      Except.ok (str "dQw4w9WgXcQ") ∧
    extract_video_id (str "https://www.youtube.com/embed/" ++ str "dQw4w9WgXcQ") =
      Except.ok (str "dQw4w9WgXcQ") ∧
    extract_video_id (str "https://www.youtube.com/v/" ++ str "dQw4w9WgXcQ") =
      Except.ok (str "dQw4w9WgXcQ") ∧
    extract_video_id (str "https://www.youtube.com/e/" ++ str "dQw4w9WgXcQ") =
      Except.ok (str "dQw4w9WgXcQ") ∧
    extract_video_id (str "https://www.youtube.com/shorts/" ++ str "dQw4w9WgXcQ") =
      Except.ok (str "dQw4w9WgXcQ") ∧
    extract_video_id (str "https://invalid-url.com") =
      Except.error (str "Could not extract YouTube video ID from URL: https://invalid-url.com") :=
  C8_resolve_shapes (str "dQw4w9WgXcQ") (by decide) (by decide)

/-! ### Claim about the caption locator -/

/-- Claim C9: on every successful caption-locator extraction the
returned locator is the matched capture (from the tight pattern, or
from the loose fallback when the tight one fails) with the whole-string
`&` → `&` substitution applied exactly once, and no `&`
sequence survives in the result. -/
theorem C9_locator_unescaped (html url : List Char)
    (h : extract_captions_url html = Except.ok url) :
    (∃ cap, (tightScan html = some cap ∨
        (tightScan html = none ∧ looseScan html = some cap)) ∧
        url = replaceAll escAmp ['&'] cap) ∧
      ¬ escAmp <:+: url := by
  unfold extract_captions_url at h
  cases ht : tightScan html with
  | some cap =>
    rw [ht] at h
    injection h with h
    subst h
    exact ⟨⟨cap, Or.inl rfl, rfl⟩,
      not_infix_replaceAll escAmp '&' (by decide) (by decide) cap⟩
  | none =>
    rw [ht] at h
    cases hl : looseScan html with
    | some cap =>
      rw [hl] at h
      injection h with h
      subst h
      exact ⟨⟨cap, Or.inr ⟨rfl, rfl⟩, rfl⟩,
        not_infix_replaceAll escAmp '&' (by decide) (by decide) cap⟩
    | none =>
      rw [hl] at h
      exact absurd h (by simp)

/-- A concrete page fragment whose caption locator contains the escaped
ampersand sequence. -/
def capHtml : List Char :=
  str "xx\"captionTracks\":[\x7b\"baseUrl\":\"https://x\\u0026y\",zz"

/-- Claim C9 witness: on `capHtml` the extraction succeeds with the
locator `https://x&y`, which contains a literal ampersand and no
escaped sequence. -/
theorem C9_locator_unescaped_witness :
    (∃ cap, (tightScan capHtml = some cap ∨
        (tightScan capHtml = none ∧ looseScan capHtml = some cap)) ∧
        str "https://x&y" = replaceAll escAmp ['&'] cap) ∧
      ¬ escAmp <:+: str "https://x&y" :=
  C9_locator_unescaped capHtml (str "https://x&y") rfl
